import Mathlib

/- Shallow embedding of fcgi-stream (src/index.js): a stream object that chops a
   sequence of byte buffers on FastCGI record boundaries.  Bytes are modelled as
   Nat, a buffer (Node Buffer) as a list of bytes, the pending-input queue as a
   list of buffers, and the event emissions (data, end, error, plus the
   calls forwarded to the attached source) as an explicit list of events
   produced by each operation. -/

/-- One Node `Buffer`: a list of byte values. -/
abbrev Chunk := List Nat

/-- Decoded FastCGI header fields, as produced by `get_header`
    (src/index.js:241-250). -/
structure Header where
  version : Nat
  type : Nat
  req_id : Nat
  body_len : Nat
  pad_len : Nat
  reserved : Nat
deriving DecidableEq

/-- Function `get_header(chunk)` (src/index.js:241-250): reads the 8 header bytes from the
    front of `chunk`.  `readUInt16BE(i)` is `chunk[i]*256 + chunk[i+1]`.  The JS
    reads would throw out of bounds; here out-of-range reads default to 0, and
    the development proves separately that every call site supplies a chunk of
    at least 8 bytes (claim C6), so the default is never observable. -/
def get_header (chunk : Chunk) : Header :=
  { version := chunk.getD 0 0
    type := chunk.getD 1 0
    req_id := chunk.getD 2 0 * 256 + chunk.getD 3 0
    body_len := chunk.getD 4 0 * 256 + chunk.getD 5 0
    pad_len := chunk.getD 6 0
    reserved := chunk.getD 7 0 }

/-- The upstream producer attached via a pipe event: only its capability
    surface matters to the framer (whether `pause`, `resume`, `destroy`
    functions exist on it; src/index.js:67, 75, 180). -/
structure Source where
  has_pause : Bool
  has_resume : Bool
  has_destroy : Bool
deriving DecidableEq

/-- Errors the code can construct.  `alreadyPiped src` is the
    Already have a pipe source error whose `source` property is the
    already-bound producer (src/index.js:46-47); `generic` stands for any other
    error object handed to `FastCGIStream.error`. -/
inductive Err where
  | alreadyPiped (source : Source)
  | generic
deriving DecidableEq

/-- Observable effects of an operation, in emission order: data events
    carrying a completed record, the end event, error events, and the
    pause / resume / destroy calls forwarded to the attached source. -/
inductive Event where
  | data (record : Chunk)
  | ended
  | error (e : Err)
  | srcPause
  | srcResume
  | srcDestroy
deriving DecidableEq

/-- State of one `FastCGIStream` instance (constructor, src/index.js:28-51).
    The `log` option is inert and omitted. -/
structure FastCGIStream where
  readable : Bool
  writable : Bool
  is_ending : Bool
  is_sending : Bool
  is_dead : Bool
  pending_data : List Chunk
  records : List Chunk
  source : Option Source
deriving DecidableEq

/-- Freshly constructed stream (src/index.js:35-42).  `is_dead` is only ever
    assigned in `destroy`; it starts absent (falsy), modelled as `false`. -/
def initState : FastCGIStream :=
  { readable := true
    writable := true
    is_ending := false
    is_sending := true
    is_dead := false
    pending_data := []
    records := []
    source := none }

/-- Expression `pending_data.reduce((len, buf) => len + buf.length, 0)`
    (src/index.js:103): total byte count of the buffered chunks. -/
def bytesOf (l : List Chunk) : Nat := (l.map List.length).sum

/-- Body of the front-merge loop (src/index.js:97-101), recursing over the
    chunks behind the current front chunk `c`: while more than one chunk is
    buffered and the front chunk is shorter than 8 bytes, the front two chunks
    are concatenated. -/
def merge_aux : Chunk → List Chunk → List Chunk
  | c, [] => [c]
  | c, c2 :: rest =>
    if c.length < 8 then merge_aux (c ++ c2) rest
    else c :: c2 :: rest

/-- The front-merge loop of `build_record` (src/index.js:97-101) as a function
    of the whole pending queue. -/
def merge_front : List Chunk → List Chunk
  | [] => []
  | c :: rest => merge_aux c rest

/-- The record-copy loop of `build_record` (src/index.js:120-135).  `need` is
    `record_bytes - offset`; `acc` holds the bytes already copied into the
    record buffer.  A chunk no longer than the remaining need is consumed
    whole; a longer chunk is split, its remainder unshifted back onto the
    queue.  The `[]`/`need+1` case corresponds to JS shifting `undefined` and
    crashing; it is proved unreachable whenever `need ≤ bytesOf pending`, which
    the guard `pending_bytes < record_bytes` of the caller ensures. -/
def copy_loop : List Chunk → Nat → Chunk → Chunk × List Chunk
  | pending, 0, acc => (acc, pending)
  | [], _ + 1, acc => (acc, [])
  | c :: rest, need + 1, acc =>
    if c.length ≤ need + 1 then copy_loop rest (need + 1 - c.length) (acc ++ c)
    else (acc ++ c.take (need + 1), c.drop (need + 1) :: rest)

/-- Function `build_record` (src/index.js:95-141) acting on the pending queue alone:
    merge the front, stop if fewer than 8 bytes are buffered, decode the
    header, stop if the full record is not yet buffered, otherwise copy the
    record out and recurse.  The tail recursion of the JS function is paid for
    with explicit fuel; `bytesOf pending + 1` units always suffice (claim C10)
    since every recursive step consumes a record of at least 8 bytes.  Returns
    the remaining pending queue and the records extracted, in order. -/
def build_record_fuel : Nat → List Chunk → List Chunk × List Chunk
  | 0, pending => (pending, [])
  | fuel + 1, pending =>
    let p := merge_front pending
    let pending_bytes := bytesOf p
    if pending_bytes < 8 then (p, [])
    else
      let header := get_header (p.headD [])
      let record_bytes := 8 + header.body_len + header.pad_len
      if pending_bytes < record_bytes then (p, [])
      else
        let r := copy_loop p record_bytes []
        let rest := build_record_fuel fuel r.2
        (rest.1, r.1 :: rest.2)

/-- Method `emit_records` (src/index.js:157-169): while sending, pop and emit every
    completed record in FIFO order; then, if still sending and ending with the
    queue empty, clear `is_ending`, clear `readable` and emit end. -/
def FastCGIStream.emit_records (s : FastCGIStream) : FastCGIStream × List Event :=
  if s.is_sending then
    if s.is_ending then
      ({ s with records := [], is_ending := false, readable := false },
        s.records.map Event.data ++ [Event.ended])
    else
      ({ s with records := [] }, s.records.map Event.data)
  else (s, [])

/-- Method `build_record` (src/index.js:95-141) acting on the stream state: extract
    every currently complete record from `pending_data`, append them to
    `records`, then run `emit_records` (reached through either base case of the
    JS recursion). -/
def FastCGIStream.build_record (s : FastCGIStream) : FastCGIStream × List Event :=
  let r := build_record_fuel (bytesOf s.pending_data + 1) s.pending_data
  FastCGIStream.emit_records
    { s with pending_data := r.1, records := s.records ++ r.2 }

/-- Method `write(data, encoding)` (src/index.js:85-92): push the chunk (if one was
    given; a Buffer is always truthy in JS, even when empty), run
    `build_record`, and return `!this.is_ending` — read after `build_record`,
    which may have cleared `is_ending` via `emit_records`. -/
def FastCGIStream.write (s : FastCGIStream) (data : Option Chunk) :
    FastCGIStream × List Event × Bool :=
  let s1 := match data with
    | some d => { s with pending_data := s.pending_data ++ [d] }
    | none => s
  let b := s1.build_record
  (b.1, b.2, !b.1.is_ending)

/-- Method `end(data, encoding)` (src/index.js:143-155): set `is_ending`, clear
    `writable`, always call `write`.  Then, if chunks remain pending, the JS
    body reads `self.pending_data` where no `self` is in scope, so the call
    throws a ReferenceError (after the state mutations and emissions of
    `write` have already happened); the third component records whether that
    throw occurs.  No error event is ever emitted on this path. -/
def FastCGIStream.endCall (s : FastCGIStream) (data : Option Chunk) :
    FastCGIStream × List Event × Bool :=
  let s1 := { s with is_ending := true, writable := false }
  let w := s1.write data
  (w.1, w.2.1, !w.1.pending_data.isEmpty)

/-- Method `pause()` (src/index.js:64-70): stop sending and forward the pause to the
    source when it is attached and has a `pause` function. -/
def FastCGIStream.pause (s : FastCGIStream) : FastCGIStream × List Event :=
  let s1 := { s with is_sending := false }
  match s.source with
  | some src => if src.has_pause then (s1, [Event.srcPause]) else (s1, [])
  | none => (s1, [])

/-- Method `resume()` (src/index.js:73-79): re-enable sending, forward the resume to
    the source when possible, then drain via `emit_records`. -/
def FastCGIStream.resume (s : FastCGIStream) : FastCGIStream × List Event :=
  let s1 := { s with is_sending := true }
  let fwd : List Event := match s.source with
    | some src => if src.has_resume then [Event.srcResume] else []
    | none => []
  let e := s1.emit_records
  (e.1, fwd ++ e.2)

/-- Method `destroy()` (src/index.js:175-183): mark the instance dead, clear
    `is_ending` and `is_sending`, and forward destruction to the source when
    it is attached and exposes a `destroy` function. -/
def FastCGIStream.destroy (s : FastCGIStream) : FastCGIStream × List Event :=
  let s1 := { s with is_dead := true, is_ending := false, is_sending := false }
  match s.source with
  | some src => if src.has_destroy then (s1, [Event.srcDestroy]) else (s1, [])
  | none => (s1, [])

/-- Method `error(er)` (src/index.js:228-235): clear `readable` and `writable`, emit
    the error event, and return `false` (the value intended for `write`). -/
def FastCGIStream.error (s : FastCGIStream) (er : Err) :
    FastCGIStream × List Event × Bool :=
  ({ s with readable := false, writable := false }, [Event.error er], false)

/-- Arrival of a pipe event (src/index.js:43-50): the first attachment
    records the producer in `source`; every later attempt builds an Error
    whose `source` property is the already-bound producer and runs
    `FastCGIStream.error` on it, leaving the binding unchanged. -/
def FastCGIStream.pipeEvent (s : FastCGIStream) (src : Source) :
    FastCGIStream × List Event :=
  match s.source with
  | none => ({ s with source := some src }, [])
  | some bound =>
    let e := s.error (Err.alreadyPiped bound)
    (e.1, e.2.1)

/-- Sequential writes: feed each chunk of `cs` to the stream with
    `FastCGIStream.write`, collecting every emitted event in order. -/
def feed : FastCGIStream → List Chunk → FastCGIStream × List Event
  | s, [] => (s, [])
  | s, c :: cs =>
    let w := s.write (some c)
    let rest := feed w.1 cs
    (rest.1, w.2.1 ++ rest.2)

/-- Field `content_length` declared by the first 8 bytes of a record
    (big-endian bytes 4 and 5, as read by `get_header`). -/
def recBodyLen (r : Chunk) : Nat := r.getD 4 0 * 256 + r.getD 5 0

/-- Field `padding_length` declared by the first 8 bytes of a record (byte 6). -/
def recPadLen (r : Chunk) : Nat := r.getD 6 0

/-- A byte-exact valid record: an 8-byte header followed by exactly
    `content_length` payload bytes and `padding_length` padding bytes, i.e.
    total length `8 + content_length + padding_length` (spec section 3). -/
abbrev ValidRecord (r : Chunk) : Prop := r.length = 8 + recBodyLen r + recPadLen r

/-- Concrete record used by witnesses: content_length 2, padding_length 1. -/
def recA : Chunk := [1, 1, 0, 1, 0, 2, 1, 0, 10, 20, 30]

/-- Concrete record used by witnesses: content_length 0, padding_length 0. -/
def recB : Chunk := [1, 2, 0, 1, 0, 0, 0, 0]

/-- Concrete record used by witnesses: content_length 1, padding_length 2. -/
def recC : Chunk := [1, 3, 0, 2, 0, 1, 2, 0, 7, 8, 9]

/-- Concrete source with every capability, used by witnesses. -/
def srcAll : Source := { has_pause := true, has_resume := true, has_destroy := true }

/-- Concrete source with no capability, used by witnesses. -/
def srcNone : Source := { has_pause := false, has_resume := false, has_destroy := false }

/-- The byte count of a queue is the length of its flattening. -/
lemma bytesOf_eq (l : List Chunk) : bytesOf l = l.flatten.length :=
  (List.length_flatten l).symm

lemma bytesOf_cons (c : Chunk) (l : List Chunk) :
    bytesOf (c :: l) = c.length + bytesOf l := by
  simp [bytesOf]

/-- The front-merge loop only regroups bytes: the flattening is unchanged. -/
lemma merge_aux_flatten (cs : List Chunk) : ∀ c : Chunk,
    (merge_aux c cs).flatten = c ++ cs.flatten := by
  induction cs with
  | nil => intro c; simp [merge_aux]
  | cons c2 rest ih =>
    intro c
    by_cases h : c.length < 8
    · simp [merge_aux, h, ih (c ++ c2)]
    · simp [merge_aux, h]

lemma merge_front_flatten (l : List Chunk) :
    (merge_front l).flatten = l.flatten := by
  cases l with
  | nil => rfl
  | cons c rest => simpa [merge_front] using merge_aux_flatten rest c

lemma bytesOf_merge_front (l : List Chunk) :
    bytesOf (merge_front l) = bytesOf l := by
  rw [bytesOf_eq, bytesOf_eq, merge_front_flatten]

/-- The merge loop stops either with at most one chunk buffered or with a front
    chunk of at least 8 bytes. -/
lemma merge_aux_head (cs : List Chunk) : ∀ c : Chunk,
    (merge_aux c cs).length ≤ 1 ∨ 8 ≤ ((merge_aux c cs).headD []).length := by
  induction cs with
  | nil => intro c; left; simp [merge_aux]
  | cons c2 rest ih =>
    intro c
    by_cases h : c.length < 8
    · simpa [merge_aux, h] using ih (c ++ c2)
    · right; simp [merge_aux, h]; omega

/-- Whenever at least 8 bytes are buffered after the merge loop, the front
    chunk alone holds at least 8 bytes. -/
lemma merge_front_head_big (l : List Chunk)
    (h : 8 ≤ bytesOf (merge_front l)) :
    8 ≤ ((merge_front l).headD []).length := by
  cases l with
  | nil => simp [merge_front, bytesOf] at h
  | cons c rest =>
    rcases merge_aux_head rest c with hle | hbig
    · -- at most one chunk: its length is the whole byte count
      rw [merge_front] at h ⊢
      match hm : merge_aux c rest with
      | [] => rw [hm] at h; simp [bytesOf] at h
      | [c0] => rw [hm] at h; simpa [bytesOf] using h
      | c0 :: c1 :: t => rw [hm] at hle; simp at hle
    · exact hbig

/-- A read inside the front chunk agrees with the same read on the flattened
    byte stream. -/
lemma getD_head_flatten (p : List Chunk) (i : Nat)
    (h : i < (p.headD []).length) :
    p.flatten.getD i 0 = (p.headD []).getD i 0 := by
  cases p with
  | nil => simp at h
  | cons c rest =>
    simp only [List.headD_cons] at h ⊢
    rw [List.flatten_cons]
    simp [List.getD, List.getElem?_append, h]

/-- A getD read inside the left part of an append. -/
lemma getD_append_left (a b : Chunk) (i : Nat) (h : i < a.length) :
    (a ++ b).getD i 0 = a.getD i 0 := by
  simp [List.getD, List.getElem?_append, h]

/-- The copy loop, when enough bytes are buffered, extracts exactly the first
    `need` bytes of the stream and leaves exactly the rest buffered. -/
lemma copy_loop_spec : ∀ (pending : List Chunk) (need : Nat) (acc : Chunk),
    need ≤ bytesOf pending →
    (copy_loop pending need acc).1 = acc ++ pending.flatten.take need ∧
    (copy_loop pending need acc).2.flatten = pending.flatten.drop need := by
  intro pending
  induction pending with
  | nil =>
    intro need acc h
    match need with
    | 0 => simp [copy_loop]
    | n + 1 => simp [bytesOf] at h
  | cons c rest ih =>
    intro need acc h
    match need with
    | 0 => simp [copy_loop]
    | n + 1 =>
      rw [bytesOf_cons] at h
      by_cases hc : c.length ≤ n + 1
      · have hrest : n + 1 - c.length ≤ bytesOf rest := by omega
        have := ih (n + 1 - c.length) (acc ++ c) hrest
        constructor
        · rw [copy_loop, if_pos hc, this.1, List.flatten_cons,
            List.take_append_eq_append_take, List.take_of_length_le hc,
            List.append_assoc]
        · rw [copy_loop, if_pos hc, this.2, List.flatten_cons,
            List.drop_append_eq_append_drop, List.drop_eq_nil_of_le hc,
            List.nil_append]
      · constructor
        · rw [copy_loop, if_neg hc, List.flatten_cons,
            List.take_append_eq_append_take]
          have : n + 1 - c.length = 0 := by omega
          rw [this, List.take_zero, List.append_nil]
        · rw [copy_loop, if_neg hc, List.flatten_cons, List.flatten_cons,
            List.drop_append_eq_append_drop]
          have : n + 1 - c.length = 0 := by omega
          rw [this, List.drop_zero]

/-- When the first 8 buffered bytes agree with the first 8 bytes of `r`, the
    header decoded from the merged front chunk declares exactly the lengths
    written in `r` itself. -/
lemma header_agrees (p : List Chunk) (r : Chunk)
    (hread8 : ∀ i, i < 8 → p.flatten.getD i 0 = r.getD i 0)
    (hp : 8 ≤ bytesOf p) :
    (get_header ((merge_front p).headD [])).body_len = recBodyLen r ∧
    (get_header ((merge_front p).headD [])).pad_len = recPadLen r := by
  have hbig : 8 ≤ ((merge_front p).headD []).length :=
    merge_front_head_big p (by rwa [bytesOf_merge_front])
  have hread : ∀ i, i < 8 →
      ((merge_front p).headD []).getD i 0 = r.getD i 0 := by
    intro i hi
    rw [← getD_head_flatten (merge_front p) i (by omega), merge_front_flatten,
      hread8 i hi]
  constructor
  · rw [get_header, recBodyLen]
    rw [hread 4 (by omega), hread 5 (by omega)]
  · rw [get_header, recPadLen]
    rw [hread 6 (by omega)]

/-- Each valid record holds at least its 8 header bytes. -/
lemma valid_length (r : Chunk) (h : ValidRecord r) : 8 ≤ r.length := by
  rw [h]; omega

/-- Unfolding: the first stop branch (fewer than 8 bytes buffered). -/
lemma build_step_stop1 (fuel : Nat) (p : List Chunk)
    (h : bytesOf (merge_front p) < 8) :
    build_record_fuel (fuel + 1) p = (merge_front p, []) := by
  rw [build_record_fuel]
  simp only
  rw [if_pos h]

/-- Unfolding: the second stop branch (record not yet fully buffered). -/
lemma build_step_stop2 (fuel : Nat) (p : List Chunk)
    (h8 : ¬ bytesOf (merge_front p) < 8)
    (hrb : bytesOf (merge_front p) <
      8 + (get_header ((merge_front p).headD [])).body_len +
        (get_header ((merge_front p).headD [])).pad_len) :
    build_record_fuel (fuel + 1) p = (merge_front p, []) := by
  rw [build_record_fuel]
  simp only
  rw [if_neg h8, if_pos hrb]

/-- Unfolding: the extraction branch (a full record is buffered). -/
lemma build_step_go (fuel : Nat) (p : List Chunk)
    (h8 : ¬ bytesOf (merge_front p) < 8)
    (hrb : ¬ bytesOf (merge_front p) <
      8 + (get_header ((merge_front p).headD [])).body_len +
        (get_header ((merge_front p).headD [])).pad_len) :
    build_record_fuel (fuel + 1) p =
      ((build_record_fuel fuel
          (copy_loop (merge_front p)
            (8 + (get_header ((merge_front p).headD [])).body_len +
              (get_header ((merge_front p).headD [])).pad_len) []).2).1,
        (copy_loop (merge_front p)
            (8 + (get_header ((merge_front p).headD [])).body_len +
              (get_header ((merge_front p).headD [])).pad_len) []).1 ::
          (build_record_fuel fuel
            (copy_loop (merge_front p)
              (8 + (get_header ((merge_front p).headD [])).body_len +
                (get_header ((merge_front p).headD [])).pad_len) []).2).2) := by
  rw [build_record_fuel]
  simp only
  rw [if_neg h8, if_neg hrb]

/-- One extraction step strictly consumes the bytes of the record, so one more unit
    of fuel never changes the result once `8 * fuel` exceeds the byte count. -/
lemma fuel_step : ∀ (fuel : Nat) (p : List Chunk), bytesOf p < 8 * fuel →
    build_record_fuel fuel p = build_record_fuel (fuel + 1) p := by
  intro fuel
  induction fuel with
  | zero => intro p h; omega
  | succ f ih =>
    intro p h
    by_cases h8 : bytesOf (merge_front p) < 8
    · rw [build_step_stop1 f p h8, build_step_stop1 (f + 1) p h8]
    · by_cases hrb : bytesOf (merge_front p) <
        8 + (get_header ((merge_front p).headD [])).body_len +
          (get_header ((merge_front p).headD [])).pad_len
      · rw [build_step_stop2 f p h8 hrb, build_step_stop2 (f + 1) p h8 hrb]
      · rw [build_step_go f p h8 hrb, build_step_go (f + 1) p h8 hrb]
        have hbytes : bytesOf (copy_loop (merge_front p)
            (8 + (get_header ((merge_front p).headD [])).body_len +
              (get_header ((merge_front p).headD [])).pad_len) []).2 < 8 * f := by
          have hc := (copy_loop_spec (merge_front p)
            (8 + (get_header ((merge_front p).headD [])).body_len +
              (get_header ((merge_front p).headD [])).pad_len) [] (by omega)).2
          rw [bytesOf_eq, hc, List.length_drop, ← bytesOf_eq, bytesOf_merge_front]
          have hmf := bytesOf_merge_front p
          omega
        rw [ih _ hbytes]

/-- Fuel monotonicity: any amount of extra fuel is irrelevant once `8 * fuel`
    exceeds the byte count. -/
lemma fuel_add : ∀ (k fuel : Nat) (p : List Chunk), bytesOf p < 8 * fuel →
    build_record_fuel fuel p = build_record_fuel (fuel + k) p := by
  intro k
  induction k with
  | zero => intro fuel p _; rfl
  | succ n ih =>
    intro fuel p h
    rw [fuel_step fuel p h, ih (fuel + 1) p (by omega)]
    ring_nf

/-- Extraction is complete: when the buffered bytes are exactly the
    concatenation of the valid records `rs`, `build_record_fuel` (given fuel
    beyond the number of records) extracts exactly `rs`, in order, and leaves
    no byte buffered. -/
lemma core_extracts : ∀ (rs : List Chunk) (fuel : Nat) (p : List Chunk),
    (∀ r ∈ rs, ValidRecord r) → p.flatten = rs.flatten → rs.length < fuel →
    (build_record_fuel fuel p).1.flatten = [] ∧
    (build_record_fuel fuel p).2 = rs := by
  intro rs
  induction rs with
  | nil =>
    intro fuel p _ hflat hfuel
    match fuel, hfuel with
    | f + 1, _ =>
      have hb : bytesOf (merge_front p) = 0 := by
        rw [bytesOf_merge_front, bytesOf_eq, hflat]; rfl
      rw [build_record_fuel]
      simp only [hb]
      rw [if_pos (by omega)]
      exact ⟨merge_front_flatten p ▸ hflat, rfl⟩
  | cons r rs ih =>
    intro fuel p hv hflat hfuel
    match fuel, hfuel with
    | f + 1, hfuel =>
      have hvr : ValidRecord r := hv r (by simp)
      have hr8 : 8 ≤ r.length := valid_length r hvr
      have hfuel2 : rs.length < f := by simpa using hfuel
      rw [List.flatten_cons] at hflat
      have hbp : bytesOf p = r.length + rs.flatten.length := by
        rw [bytesOf_eq, hflat, List.length_append]
      have hb : bytesOf (merge_front p) = r.length + rs.flatten.length := by
        rw [bytesOf_merge_front, hbp]
      have hagree := header_agrees p r
        (fun i hi => by rw [hflat, getD_append_left r rs.flatten i (by omega)])
        (by omega)
      have hrb : 8 + (get_header ((merge_front p).headD [])).body_len +
          (get_header ((merge_front p).headD [])).pad_len = r.length := by
        rw [hagree.1, hagree.2]; exact hvr.symm
      have hcopy := copy_loop_spec (merge_front p) r.length []
        (by rw [bytesOf_merge_front, hbp]; omega)
      rw [merge_front_flatten, hflat] at hcopy
      have hcopy1 : (copy_loop (merge_front p) r.length []).1 = r := by
        rw [hcopy.1, List.nil_append, List.take_left]
      have hcopy2 : (copy_loop (merge_front p) r.length []).2.flatten =
          rs.flatten := by
        rw [hcopy.2, List.drop_left]
      have hih := ih f (copy_loop (merge_front p) r.length []).2
        (fun x hx => hv x (by simp [hx])) hcopy2 (by omega)
      rw [build_record_fuel]
      simp only
      rw [if_neg (by omega), hrb, if_neg (by omega), hcopy1]
      exact ⟨hih.1, by rw [hih.2]⟩

/-- A `write` while sending is disabled emits nothing and leaves every flag,
    and the source binding, unchanged. -/
lemma write_not_sending (s : FastCGIStream) (d : Option Chunk)
    (h : s.is_sending = false) :
    (s.write d).2.1 = [] ∧
    (s.write d).1.is_sending = false ∧
    (s.write d).1.is_ending = s.is_ending ∧
    (s.write d).1.is_dead = s.is_dead ∧
    (s.write d).1.readable = s.readable ∧
    (s.write d).1.writable = s.writable ∧
    (s.write d).1.source = s.source := by
  cases d <;>
    simp [FastCGIStream.write, FastCGIStream.build_record,
      FastCGIStream.emit_records, h]

/-- A `write` of one whole valid record onto an empty buffer while paused:
    nothing is emitted, the record is queued, and the buffer is left with no
    byte in it. -/
lemma write_record_paused (s : FastCGIStream) (r : Chunk)
    (h : s.is_sending = false) (hp : s.pending_data.flatten = [])
    (hv : ValidRecord r) :
    (s.write (some r)).2.1 = [] ∧
    (s.write (some r)).1.records = s.records ++ [r] ∧
    (s.write (some r)).1.pending_data.flatten = [] ∧
    (s.write (some r)).1.is_sending = false ∧
    (s.write (some r)).1.is_ending = s.is_ending ∧
    (s.write (some r)).1.is_dead = s.is_dead ∧
    (s.write (some r)).1.readable = s.readable ∧
    (s.write (some r)).1.source = s.source := by
  have hflat : (s.pending_data ++ [r]).flatten = List.flatten [r] := by
    simp [List.flatten_append, hp]
  have hlen : 8 ≤ r.length := valid_length r hv
  have hbytes : bytesOf (s.pending_data ++ [r]) = r.length := by
    rw [bytesOf_eq, hflat]; simp
  have hcore := core_extracts [r] (bytesOf (s.pending_data ++ [r]) + 1)
    (s.pending_data ++ [r]) (by intro x hx; simp at hx; rw [hx]; exact hv)
    hflat (by simp; omega)
  simp only [FastCGIStream.write, FastCGIStream.build_record,
    FastCGIStream.emit_records, h]
  simp [hcore.1, hcore.2, h]

/-- Extraction does not fire early: when the buffered bytes form a proper
    nonempty strict front part of a single valid record, `build_record_fuel`
    extracts nothing and only regroups the buffered chunks. -/
lemma core_keeps (p : List Chunk) (r t : Chunk) (fuel : Nat)
    (hv : ValidRecord r) (ht : t ≠ []) (hp : p.flatten ++ t = r) :
    build_record_fuel (fuel + 1) p = (merge_front p, []) := by
  have hr8 : 8 ≤ r.length := valid_length r hv
  have hlen : p.flatten.length + t.length = r.length := by
    rw [← hp, List.length_append]
  have htpos : 0 < t.length := List.length_pos.mpr ht
  by_cases h8 : bytesOf (merge_front p) < 8
  · rw [build_record_fuel]
    simp only
    rw [if_pos h8]
  · rw [bytesOf_merge_front, bytesOf_eq] at h8
    have hagree := header_agrees p r
      (fun i hi => by rw [← hp, getD_append_left p.flatten t i (by omega)])
      (by rw [bytesOf_eq]; omega)
    have hrb : 8 + (get_header ((merge_front p).headD [])).body_len +
        (get_header ((merge_front p).headD [])).pad_len = r.length := by
      rw [hagree.1, hagree.2]; exact hv.symm
    rw [build_record_fuel]
    simp only
    rw [if_neg (by rw [bytesOf_merge_front, bytesOf_eq]; omega), hrb,
      if_pos (by rw [bytesOf_merge_front, bytesOf_eq]; omega)]

/-- A `write` while sending, whose chunk still leaves the buffered bytes a
    strict front part of the valid record `r`: nothing is emitted and the new
    bytes of the chunk are simply buffered. -/
lemma write_front_part (s : FastCGIStream) (c r t : Chunk)
    (hsend : s.is_sending = true) (hend : s.is_ending = false)
    (hrec : s.records = []) (hv : ValidRecord r) (ht : t ≠ [])
    (hp : (s.pending_data.flatten ++ c) ++ t = r) :
    (s.write (some c)).2.1 = [] ∧
    (s.write (some c)).1.pending_data.flatten = s.pending_data.flatten ++ c ∧
    (s.write (some c)).1.records = [] ∧
    (s.write (some c)).1.is_sending = true ∧
    (s.write (some c)).1.is_ending = false := by
  have hflat : (s.pending_data ++ [c]).flatten = s.pending_data.flatten ++ c := by
    simp [List.flatten_append]
  have hcore := core_keeps (s.pending_data ++ [c]) r t
    (bytesOf (s.pending_data ++ [c])) hv ht (by rw [hflat]; exact hp)
  simp only [FastCGIStream.write, FastCGIStream.build_record,
    FastCGIStream.emit_records]
  simp [hcore, hsend, hend, hrec, merge_front_flatten, hflat]

/-- A `write` while sending whose chunk completes exactly the valid record
    `r`: the record is emitted at once and the buffer is left empty. -/
lemma write_complete (s : FastCGIStream) (c r : Chunk)
    (hsend : s.is_sending = true) (hend : s.is_ending = false)
    (hrec : s.records = []) (hv : ValidRecord r)
    (hp : s.pending_data.flatten ++ c = r) :
    (s.write (some c)).2.1 = [Event.data r] ∧
    (s.write (some c)).1.pending_data.flatten = [] ∧
    (s.write (some c)).1.records = [] ∧
    (s.write (some c)).1.is_sending = true ∧
    (s.write (some c)).1.is_ending = false := by
  have hflat : (s.pending_data ++ [c]).flatten = List.flatten [r] := by
    simp [List.flatten_append, hp]
  have hlen := valid_length r hv
  have hbytes : bytesOf (s.pending_data ++ [c]) = r.length := by
    rw [bytesOf_eq, hflat]; simp
  have hcore := core_extracts [r] (bytesOf (s.pending_data ++ [c]) + 1)
    (s.pending_data ++ [c]) (by intro x hx; simp at hx; rw [hx]; exact hv)
    hflat (by simp; omega)
  simp only [FastCGIStream.write, FastCGIStream.build_record,
    FastCGIStream.emit_records]
  simp [hcore.1, hcore.2, hsend, hend, hrec]

/-- Feeding any number of whole valid records while paused: nothing is
    emitted, every record is queued in arrival order, nothing is discarded,
    and the flags and binding are untouched. -/
lemma feed_paused_records : ∀ (rs : List Chunk) (s : FastCGIStream),
    s.is_sending = false → s.pending_data.flatten = [] →
    (∀ r ∈ rs, ValidRecord r) →
    (feed s rs).2 = [] ∧
    (feed s rs).1.records = s.records ++ rs ∧
    (feed s rs).1.pending_data.flatten = [] ∧
    (feed s rs).1.is_sending = false ∧
    (feed s rs).1.is_ending = s.is_ending ∧
    (feed s rs).1.is_dead = s.is_dead ∧
    (feed s rs).1.readable = s.readable ∧
    (feed s rs).1.source = s.source := by
  intro rs
  induction rs with
  | nil => intro s h hp _; simp [feed, h, hp]
  | cons r rs ih =>
    intro s h hp hv
    have hw := write_record_paused s r h hp (hv r (by simp))
    have hih := ih (s.write (some r)).1 hw.2.2.2.1 hw.2.2.1
      (fun x hx => hv x (by simp [hx]))
    rw [feed]
    simp only
    refine ⟨by rw [hw.1, hih.1]; rfl, ?_, hih.2.2.1, hih.2.2.2.1, ?_, ?_, ?_, ?_⟩
    · rw [hih.2.1, hw.2.1, List.append_assoc]; rfl
    · rw [hih.2.2.2.2.1, hw.2.2.2.2.1]
    · rw [hih.2.2.2.2.2.1, hw.2.2.2.2.2.1]
    · rw [hih.2.2.2.2.2.2.1, hw.2.2.2.2.2.2.1]
    · rw [hih.2.2.2.2.2.2.2, hw.2.2.2.2.2.2.2]

/-- Feeding only empty chunks to a drained, sending, non-ending stream emits
    nothing and keeps the buffer empty. -/
lemma feed_empty : ∀ (cs : List Chunk) (s : FastCGIStream),
    s.is_sending = true → s.is_ending = false → s.records = [] →
    s.pending_data.flatten = [] → cs.flatten = [] →
    (feed s cs).2 = [] ∧
    (feed s cs).1.pending_data.flatten = [] := by
  intro cs
  induction cs with
  | nil => intro s _ _ _ hp _; simp [feed, hp]
  | cons c cs ih =>
    intro s hsend hend hrec hp hflat
    rw [List.flatten_cons, List.append_eq_nil] at hflat
    have hpflat : (s.pending_data ++ [c]).flatten =
        List.flatten ([] : List Chunk) := by
      simp [List.flatten_append, hp, hflat.1]
    have hcore := core_extracts [] (bytesOf (s.pending_data ++ [c]) + 1)
      (s.pending_data ++ [c]) (by simp) hpflat (by simp)
    have hw : (s.write (some c)).2.1 = [] ∧
        (s.write (some c)).1.pending_data.flatten = [] ∧
        (s.write (some c)).1.records = [] ∧
        (s.write (some c)).1.is_sending = true ∧
        (s.write (some c)).1.is_ending = false := by
      simp only [FastCGIStream.write, FastCGIStream.build_record,
        FastCGIStream.emit_records]
      simp [hcore.1, hcore.2, hsend, hend, hrec]
    have hih := ih (s.write (some c)).1 hw.2.2.2.1 hw.2.2.2.2 hw.2.2.1
      hw.2.1 hflat.2
    rw [feed]
    simp only
    exact ⟨by rw [hw.1, hih.1]; rfl, hih.2⟩

/-- Feeding chunks whose bytes, appended to the buffered bytes, form exactly
    one valid record `r`, with at least one byte still to come: exactly one
    data event carrying `r` is emitted, and the buffer ends empty. -/
lemma feed_front_part (r : Chunk) (hv : ValidRecord r) :
    ∀ (cs : List Chunk) (s : FastCGIStream),
      s.is_sending = true → s.is_ending = false → s.records = [] →
      s.pending_data.flatten ++ cs.flatten = r → cs.flatten ≠ [] →
      (feed s cs).2 = [Event.data r] ∧
      (feed s cs).1.pending_data.flatten = [] := by
  intro cs
  induction cs with
  | nil => intro s _ _ _ _ hne; simp at hne
  | cons c cs ih =>
    intro s hsend hend hrec hp hne
    rw [List.flatten_cons] at hp
    by_cases hcs : cs.flatten = []
    · have hpc : s.pending_data.flatten ++ c = r := by
        rw [← hp, hcs, List.append_nil]
      have hw := write_complete s c r hsend hend hrec hv hpc
      have hfe := feed_empty cs (s.write (some c)).1 hw.2.2.2.1 hw.2.2.2.2
        hw.2.2.1 hw.2.1 hcs
      rw [feed]
      simp only
      exact ⟨by rw [hw.1, hfe.1]; rfl, hfe.2⟩
    · have hw := write_front_part s c r cs.flatten hsend hend hrec hv hcs
        (by rw [List.append_assoc]; exact hp)
      have hih := ih (s.write (some c)).1 hw.2.2.2.1 hw.2.2.2.2 hw.2.2.1
        (by rw [hw.2.1, List.append_assoc]; exact hp) hcs
      rw [feed]
      simp only
      exact ⟨by rw [hw.1, hih.1]; rfl, hih.2⟩

/-- Each chunk of a list of valid records holds at least one byte, so there
    are no more records than flattened bytes. -/
lemma length_le_bytes : ∀ (rs : List Chunk), (∀ r ∈ rs, ValidRecord r) →
    rs.length ≤ rs.flatten.length := by
  intro rs
  induction rs with
  | nil => intro _; simp
  | cons r rs ih =>
    intro hv
    have h8 := valid_length r (hv r (by simp))
    have hih := ih (fun x hx => hv x (by simp [hx]))
    simp only [List.length_cons, List.flatten_cons, List.length_append]
    omega

/-- C1: writing the concatenation of N valid records (8-byte header,
    `content_length` payload bytes, `padding_length` padding bytes each) to a
    fresh stream as one single chunk, with sending enabled, emits exactly N
    data events carrying the N records byte-identically and in order, and
    consumes every input byte. -/
theorem claim_C1_multi_record_roundtrip (rs : List Chunk) (_hne : rs ≠ [])
    (hv : ∀ r ∈ rs, ValidRecord r) :
    (initState.write (some rs.flatten)).2.1 = rs.map Event.data ∧
    (initState.write (some rs.flatten)).1.pending_data.flatten = [] := by
  have hlen := length_le_bytes rs hv
  have hb : bytesOf [rs.flatten] = rs.flatten.length := by simp [bytesOf]
  have hcore := core_extracts rs (bytesOf [rs.flatten] + 1) [rs.flatten]
    hv (by simp) (by rw [hb]; omega)
  simp only [FastCGIStream.write, FastCGIStream.build_record,
    FastCGIStream.emit_records, initState]
  simp [hcore.1, hcore.2]

/-- Witness for C1 at two concrete records. -/
theorem claim_C1_witness :
    ValidRecord recA ∧ ValidRecord recB ∧
    (initState.write (some (List.flatten [recA, recB]))).2.1 =
      [Event.data recA, Event.data recB] := by
  refine ⟨by decide, by decide, ?_⟩
  have h := claim_C1_multi_record_roundtrip [recA, recB] (by decide) (by decide)
  simpa using h.1

/-- C2: splitting one valid record into any sequence of chunks (including
    one-byte chunks) and writing them in order to a fresh stream with sending
    enabled emits exactly one data event carrying the record byte-identically
    — the same emission as feeding the record whole — and every input byte is
    consumed, none dropped or duplicated. -/
theorem claim_C2_chunk_boundary_independence (r : Chunk) (cs : List Chunk)
    (hv : ValidRecord r) (hcs : cs.flatten = r) :
    (feed initState cs).2 = [Event.data r] ∧
    (feed initState cs).2 = (feed initState [r]).2 ∧
    (feed initState cs).1.pending_data.flatten = [] := by
  have hr8 := valid_length r hv
  have hrne : r ≠ [] := by
    intro h
    rw [h] at hr8
    simp at hr8
  have h1 := feed_front_part r hv cs initState rfl rfl rfl
    (by simp [initState, hcs]) (by rw [hcs]; exact hrne)
  have h2 := feed_front_part r hv [r] initState rfl rfl rfl
    (by simp [initState]) (by simpa using hrne)
  exact ⟨h1.1, h1.1.trans h2.1.symm, h1.2⟩

/-- Witness for C2: the 11-byte record recA fed one byte at a time. -/
theorem claim_C2_witness :
    ValidRecord recA ∧
    List.flatten [[1], [1], [0], [1], [0], [2], [1], [0], [10], [20], [30]] = recA ∧
    (feed initState [[1], [1], [0], [1], [0], [2], [1], [0], [10], [20], [30]]).2 =
      [Event.data recA] :=
  ⟨by decide, by decide,
    (claim_C2_chunk_boundary_independence recA
      [[1], [1], [0], [1], [0], [2], [1], [0], [10], [20], [30]]
      (by decide) (by decide)).1⟩

/-- C6: whenever `build_record` reaches the `get_header` call (the buffered
    byte count after the front merge is not below 8), the front chunk alone
    holds at least 8 bytes, so all header reads at offsets 0 through 7 are in
    bounds and no header is decoded across a chunk boundary. -/
theorem claim_C6_header_in_bounds (p : List Chunk)
    (h : ¬ bytesOf (merge_front p) < 8) :
    8 ≤ ((merge_front p).headD []).length ∧
    ∀ i, i < 8 → i < ((merge_front p).headD []).length := by
  have hbig := merge_front_head_big p (by omega)
  exact ⟨hbig, fun i hi => by omega⟩

/-- Witness for C6: a 3-byte chunk followed by an 8-byte chunk is merged into
    one 11-byte front chunk before the header is decoded. -/
theorem claim_C6_witness :
    bytesOf (merge_front [[1, 2, 3], [4, 5, 6, 7, 8, 9, 10, 11]]) = 11 ∧
    8 ≤ ((merge_front [[1, 2, 3], [4, 5, 6, 7, 8, 9, 10, 11]]).headD []).length :=
  ⟨by decide,
    (claim_C6_header_in_bounds [[1, 2, 3], [4, 5, 6, 7, 8, 9, 10, 11]]
      (by decide)).1⟩

/-- C10: `build_record` terminates on every finite buffer.  The merge loop and
    the copy loop are total functions (structural recursion), and the tail
    recursion of `build_record_fuel` reaches its fixed point within
    `bytesOf p + 1` steps: any fuel of at least `bytesOf p + 1` yields the same
    result, because every recursive step consumes one complete record of at
    least 8 bytes. -/
theorem claim_C10_termination (p : List Chunk) (fuel : Nat)
    (h : bytesOf p + 1 ≤ fuel) :
    build_record_fuel fuel p = build_record_fuel (bytesOf p + 1) p := by
  obtain ⟨k, rfl⟩ : ∃ k, fuel = bytesOf p + 1 + k :=
    ⟨fuel - (bytesOf p + 1), by omega⟩
  exact (fuel_add k (bytesOf p + 1) p (by omega)).symm

/-- Witness for C10 at a concrete two-record buffer. -/
theorem claim_C10_witness :
    bytesOf [recA, recB] + 1 ≤ 25 ∧
    build_record_fuel 25 [recA, recB] =
      build_record_fuel (bytesOf [recA, recB] + 1) [recA, recB] :=
  ⟨by decide, claim_C10_termination [recA, recB] 25 (by decide)⟩

/-- Method `pause` only clears `is_sending`. -/
lemma pause_state (s : FastCGIStream) :
    s.pause.1 = { s with is_sending := false } := by
  rw [FastCGIStream.pause]
  cases s.source with
  | none => rfl
  | some src => cases h : src.has_pause <;> simp [h]

/-- The events of `pause`: the forwarded pause call, when possible. -/
lemma pause_events (s : FastCGIStream) :
    s.pause.2 = (match s.source with
      | some src => if src.has_pause then [Event.srcPause] else []
      | none => []) := by
  rw [FastCGIStream.pause]
  cases s.source with
  | none => rfl
  | some src => cases h : src.has_pause <;> simp [h]

/-- Method `destroy` sets `is_dead` and clears `is_ending` and `is_sending`. -/
lemma destroy_state (s : FastCGIStream) :
    s.destroy.1 = { s with
      is_dead := true
      is_ending := false
      is_sending := false } := by
  rw [FastCGIStream.destroy]
  cases s.source with
  | none => rfl
  | some src => cases h : src.has_destroy <;> simp [h]

/-- The events of `destroy`: the forwarded destroy call, when possible. -/
lemma destroy_events (s : FastCGIStream) :
    s.destroy.2 = (match s.source with
      | some src => if src.has_destroy then [Event.srcDestroy] else []
      | none => []) := by
  rw [FastCGIStream.destroy]
  cases s.source with
  | none => rfl
  | some src => cases h : src.has_destroy <;> simp [h]

/-- Any sequence of writes while sending is disabled emits nothing. -/
lemma feed_not_sending : ∀ (cs : List Chunk) (s : FastCGIStream),
    s.is_sending = false →
    (feed s cs).2 = [] ∧ (feed s cs).1.is_sending = false ∧
    (feed s cs).1.is_ending = s.is_ending := by
  intro cs
  induction cs with
  | nil => intro s h; simp [feed, h]
  | cons c cs ih =>
    intro s h
    have hw := write_not_sending s (some c) h
    have hih := ih _ hw.2.1
    rw [feed]
    simp only
    exact ⟨by rw [hw.1, hih.1]; rfl, hih.2.1, by rw [hih.2.2, hw.2.2.1]⟩

/-- No emission of `emit_records` is an error event. -/
lemma emit_no_error (s : FastCGIStream) (er : Err) :
    Event.error er ∉ s.emit_records.2 := by
  rw [FastCGIStream.emit_records]
  by_cases hs : s.is_sending
  · by_cases he : s.is_ending <;> simp [hs, he]
  · simp [hs]

/-- No emission of `write` is an error event. -/
lemma write_no_error (s : FastCGIStream) (d : Option Chunk) (er : Err) :
    Event.error er ∉ (s.write d).2.1 :=
  emit_no_error _ er

/-- C3: `emit_records` delivers the queued records to the consumer in FIFO
    order only while `is_sending` is true; end is emitted exactly once, only
    when the queue has been drained with `is_sending` and `is_ending` both
    true, whereupon `is_ending` is cleared and `readable` set to false; end
    is never emitted while sending is off, and always after every queued
    record. -/
theorem claim_C3_drain_order (s : FastCGIStream) :
    (s.is_sending = false → s.emit_records = (s, [])) ∧
    (s.is_sending = true → s.is_ending = false →
      s.emit_records.2 = s.records.map Event.data ∧
      s.emit_records.1.records = [] ∧
      Event.ended ∉ s.emit_records.2) ∧
    (s.is_sending = true → s.is_ending = true →
      s.emit_records.2 = s.records.map Event.data ++ [Event.ended] ∧
      s.emit_records.1.records = [] ∧
      s.emit_records.1.is_ending = false ∧
      s.emit_records.1.readable = false ∧
      s.emit_records.2.count Event.ended = 1) := by
  refine ⟨?_, ?_, ?_⟩
  · intro h
    simp [FastCGIStream.emit_records, h]
  · intro hs he
    simp [FastCGIStream.emit_records, hs, he]
  · intro hs he
    refine ⟨by simp [FastCGIStream.emit_records, hs, he], by
      simp [FastCGIStream.emit_records, hs, he], by
      simp [FastCGIStream.emit_records, hs, he], by
      simp [FastCGIStream.emit_records, hs, he], ?_⟩
    simp only [FastCGIStream.emit_records, hs, he, if_true]
    rw [List.count_append]
    rw [List.count_eq_zero.mpr (by simp)]
    simp

/-- Witness for C3: two queued records with `is_ending` set are delivered in
    order, then end, and `is_ending` is cleared. -/
theorem claim_C3_witness :
    ({ initState with
        is_ending := true
        records := [recA, recB] } : FastCGIStream).emit_records.2 =
      [Event.data recA, Event.data recB, Event.ended] ∧
    ({ initState with
        is_ending := true
        records := [recA, recB] } : FastCGIStream).emit_records.1.is_ending =
      false := by
  have h := (claim_C3_drain_order
    { initState with is_ending := true, records := [recA, recB] }).2.2
    rfl rfl
  exact ⟨h.1.trans (by decide), h.2.2.1⟩

/-- C4: after `pause` (which clears `is_sending` and forwards the pause to an
    attached producer that supports it), writing whole valid records produces
    no deliveries while the records accumulate in the queue, none discarded;
    `resume` re-enables sending and immediately delivers every queued record
    in arrival order. -/
theorem claim_C4_backpressure (s : FastCGIStream) (rs : List Chunk)
    (hv : ∀ r ∈ rs, ValidRecord r)
    (hpend : s.pending_data.flatten = []) (hrec : s.records = [])
    (hend : s.is_ending = false) :
    s.pause.1.is_sending = false ∧
    (s.pause.2 = match s.source with
      | some src => if src.has_pause then [Event.srcPause] else []
      | none => []) ∧
    (feed s.pause.1 rs).2 = [] ∧
    (feed s.pause.1 rs).1.records = rs ∧
    (feed s.pause.1 rs).1.resume.1.is_sending = true ∧
    ((feed s.pause.1 rs).1.resume.2 = (match s.source with
      | some src => if src.has_resume then [Event.srcResume] else []
      | none => []) ++ rs.map Event.data) := by
  have hp1 := pause_state s
  have hfeed := feed_paused_records rs s.pause.1 (by rw [hp1])
    (by simp [hp1, hpend]) hv
  have hFend : (feed s.pause.1 rs).1.is_ending = false := by
    rw [hfeed.2.2.2.2.1]
    simp [hp1, hend]
  have hFrec : (feed s.pause.1 rs).1.records = rs := by
    rw [hfeed.2.1]
    simp [hp1, hrec]
  have hFsrc : (feed s.pause.1 rs).1.source = s.source := by
    rw [hfeed.2.2.2.2.2.2.2]
    simp [hp1]
  refine ⟨by simp [hp1], pause_events s, hfeed.1, hFrec, ?_, ?_⟩
  · simp [FastCGIStream.resume, FastCGIStream.emit_records, hFend]
  · rw [FastCGIStream.resume]
    simp only [hFsrc]
    simp [FastCGIStream.emit_records, hFend, hFrec]

/-- Witness for C4: three records fed while paused yield no events, queue all
    three, and resume delivers exactly the three in order. -/
theorem claim_C4_witness :
    ValidRecord recA ∧ ValidRecord recB ∧ ValidRecord recC ∧
    (feed initState.pause.1 [recA, recB, recC]).2 = [] ∧
    (feed initState.pause.1 [recA, recB, recC]).1.records = [recA, recB, recC] ∧
    (feed initState.pause.1 [recA, recB, recC]).1.resume.2 =
      [Event.data recA, Event.data recB, Event.data recC] := by
  have h := claim_C4_backpressure initState [recA, recB, recC] (by decide)
    rfl rfl rfl
  refine ⟨by decide, by decide, by decide, h.2.2.1, h.2.2.2.1, ?_⟩
  have h6 := h.2.2.2.2.2
  simpa [initState] using h6

/-- C5 (recording the defect): `error` does clear `readable` and `writable`
    and emits exactly one error event, but a subsequent `write` still
    returns `true` (`!is_ending` is unaffected by the error) and still emits
    data events, contradicting the claimed propagation policy — which the
    comment of the code itself in `error` (src/index.js:233) says was intended. -/
theorem claim_C5_error_path_bug :
    (initState.error Err.generic).1.readable = false ∧
    (initState.error Err.generic).1.writable = false ∧
    (initState.error Err.generic).2.1 = [Event.error Err.generic] ∧
    ((initState.error Err.generic).1.write (some recB)).2.2 = true ∧
    ((initState.error Err.generic).1.write (some recB)).2.1 =
      [Event.data recB] := by
  refine ⟨rfl, rfl, rfl, by decide, by decide⟩

/-- C7: when `endCall` leaves undecodable bytes pending, the leftover branch
    aborts on the unbound `self` (modelled by the `true` throw flag) and no
    error event — in particular no leftover-data error — is ever emitted to
    the consumer on this path. -/
theorem claim_C7_leftover_no_error (s : FastCGIStream) (d : Option Chunk)
    (h : (s.endCall d).1.pending_data ≠ []) :
    (s.endCall d).2.2 = true ∧
    ∀ er : Err, Event.error er ∉ (s.endCall d).2.1 := by
  constructor
  · show (!(s.endCall d).1.pending_data.isEmpty) = true
    cases hl : (s.endCall d).1.pending_data with
    | nil => exact absurd hl h
    | cons a t => rfl
  · intro er
    exact write_no_error _ d er

/-- Witness for C7: ending with three stray bytes pending throws and emits no
    error event. -/
theorem claim_C7_witness :
    (initState.endCall (some [9, 9, 9])).1.pending_data = [[9, 9, 9]] ∧
    (initState.endCall (some [9, 9, 9])).2.2 = true :=
  ⟨by decide,
    (claim_C7_leftover_no_error initState (some [9, 9, 9]) (by decide)).1⟩

/-- C8: the first pipe attachment records the producer in `source` with no
    error; every further attachment attempt emits a fatal binding error whose
    payload is the already-bound producer, and the original binding is kept. -/
theorem claim_C8_single_binding (s : FastCGIStream) (src src2 : Source)
    (h : s.source = none) :
    (s.pipeEvent src).1.source = some src ∧
    (s.pipeEvent src).2 = [] ∧
    ((s.pipeEvent src).1.pipeEvent src2).2 =
      [Event.error (Err.alreadyPiped src)] ∧
    ((s.pipeEvent src).1.pipeEvent src2).1.source = some src := by
  have h1 : s.pipeEvent src = ({ s with source := some src }, []) := by
    rw [FastCGIStream.pipeEvent, h]
  refine ⟨by rw [h1], by rw [h1], by rw [h1]; rfl, by rw [h1]; rfl⟩

/-- Witness for C8 at two concrete producers. -/
theorem claim_C8_witness :
    (initState.pipeEvent srcAll).1.source = some srcAll ∧
    ((initState.pipeEvent srcAll).1.pipeEvent srcNone).2 =
      [Event.error (Err.alreadyPiped srcAll)] ∧
    ((initState.pipeEvent srcAll).1.pipeEvent srcNone).1.source =
      some srcAll := by
  have h := claim_C8_single_binding initState srcAll srcNone rfl
  exact ⟨h.1, h.2.2.1, h.2.2.2⟩

/-- C9 refutation of the "no further writes, no further drains" part: after
    `destroy`, a `write` is still accepted (it returns true and is processed),
    and a later `resume` still delivers a record queued before destruction. -/
theorem claim_C9_counterexample :
    ((initState.pause.1.write (some recA)).1.destroy.1.write
      (some recB)).2.2 = true ∧
    Event.data recA ∈
      (initState.pause.1.write (some recA)).1.destroy.1.resume.2 := by
  constructor <;> decide

/-- C9 (amended): `destroy` marks the instance dead, clears `is_ending` and
    `is_sending`, and forwards destruction exactly when a producer is attached
    and exposes a destroy function; afterwards — as long as nothing re-enables
    sending — no event at all is emitted by any further `write` or `endCall`,
    but such calls are still accepted and processed rather than rejected. -/
theorem claim_C9_destroy_amended (s : FastCGIStream) :
    s.destroy.1.is_dead = true ∧
    s.destroy.1.is_ending = false ∧
    s.destroy.1.is_sending = false ∧
    (s.destroy.2 = match s.source with
      | some src => if src.has_destroy then [Event.srcDestroy] else []
      | none => []) ∧
    (∀ cs : List Chunk, (feed s.destroy.1 cs).2 = []) ∧
    (∀ cs : List Chunk, ∀ d : Option Chunk,
      ((feed s.destroy.1 cs).1.endCall d).2.1 = []) := by
  have hd := destroy_state s
  have hds : s.destroy.1.is_sending = false := by simp [hd]
  refine ⟨by simp [hd], by simp [hd], hds, destroy_events s, ?_, ?_⟩
  · intro cs
    exact (feed_not_sending cs _ hds).1
  · intro cs d
    have hFs := (feed_not_sending cs _ hds).2.1
    exact (write_not_sending
      { (feed s.destroy.1 cs).1 with is_ending := true, writable := false } d
      (by simpa using hFs)).1
